import Mathlib

set_option maxHeartbeats 1000000

/-!
Verification of `streamprint` (src/streamprint.h), a small C++ header that
writes values to an output stream either unformatted (`print`) or under a
`{...}` placeholder mini-language (`fprint`).

The embedding models the sink as the formatting-relevant part of a
`std::ostream` attached to an in-memory buffer: the accumulated character
content plus the ambient formatting state (`width`, `precision`, `fill`,
float notation and adjustment flags).  Formatted insertions (`operator<<`
for strings, integers and characters) honour `width`/`fill`/adjustment and
reset `width` to 0 afterwards, exactly as iostreams do.  The functions
`printH`, `setOpts`, `checkSetOpts` and `fprintH` are direct translations
of `print_h`, `setOpts`, `checkSetOpts` and `fprint_h` from the source;
C strings are lists of characters, with reads one past the end of a
scanned region yielding the NUL terminator, and the in-place buffer
mutation of `checkSetOpts` made explicit by returning the updated buffer
and cursor.
-/

/-- Float notation flags of the sink (`std::fixed` etc.). -/
inductive FFmt where
  | fdefault
  | ffixed
  | fsci
  | fhex
deriving DecidableEq

/-- Adjustment (alignment) flags of the sink (`std::left` / `std::right`);
`adefault` is the initial state where neither bit is set, which pads in
front like `right`. -/
inductive Adjust where
  | adefault
  | aleft
  | aright
deriving DecidableEq

/-- The sink: accumulated output plus ambient iostream formatting state. -/
structure St where
  content : List Char
  width : Int
  prec : Int
  fill : Char
  ffmt : FFmt
  adjust : Adjust
deriving DecidableEq

/-- A freshly constructed string stream: empty content, default state. -/
def st0 : St :=
  { content := [], width := 0, prec := 6, fill := ' ', ffmt := .fdefault, adjust := .adefault }

/-- The NUL terminator character, `char(0)` in the source. -/
def cNul : Char := Char.ofNat 0

/-- The `char(1)` byte that `checkSetOpts` writes over the brace positions
after a scan step. -/
def cOne : Char := Char.ofNat 1

/-- Number of fill characters a formatted insertion of `l` produces:
positive only when the text is shorter than the current field width. -/
def padCount (s : St) (l : List Char) : Nat := (s.width - (l.length : Int)).toNat

/-- Apply field-width padding to a piece of text per the sink's current
width, fill character and adjustment. -/
def pad (s : St) (l : List Char) : List Char :=
  match s.adjust with
  | .aleft => l ++ List.replicate (padCount s l) s.fill
  | _ => List.replicate (padCount s l) s.fill ++ l

/-- Formatted insertion of a character sequence (`out << (const char *)`):
pads to the field width and resets the width, per iostream semantics. -/
def writeStr (s : St) (l : List Char) : St :=
  { s with content := s.content ++ pad s l, width := 0 }

/-- A heterogeneous argument value the caller may pass to `print`/`fprint`. -/
inductive Value where
  | vint (i : Int)
  | vstr (l : List Char)
  | vchar (c : Char)
deriving DecidableEq

/-- Decimal digit character. -/
def digitChar (n : Nat) : Char := Char.ofNat (48 + n)

/-- Decimal digits of a natural number (fuel-driven; fuel `n + 1` always
suffices since the argument shrinks by a factor of ten each step). -/
def natChars : Nat → Nat → List Char
  | 0, _ => []
  | fuel + 1, n => if n < 10 then [digitChar n] else natChars fuel (n / 10) ++ [digitChar (n % 10)]

/-- Decimal rendering of an integer, as `operator<<` produces it. -/
def intChars (i : Int) : List Char :=
  if i < 0 then '-' :: natChars (i.natAbs + 1) i.natAbs else natChars (i.natAbs + 1) i.natAbs

/-- The unpadded text of a value's stream insertion. -/
def raw : Value → List Char
  | .vint i => intChars i
  | .vstr l => l
  | .vchar c => [c]

/-- Formatted insertion of a value (`out << v`): pads to the field width
and resets the width, per iostream semantics. -/
def writeVal (s : St) (v : Value) : St :=
  { s with content := s.content ++ pad s (raw v), width := 0 }

/-- Translation of `detail::print_h`: write each argument in order via
`operator<<`; the three `enable_if` overloads collapse to list recursion
(arity 0 is a no-op). -/
def printH (s : St) : List Value → St
  | [] => s
  | v :: r => printH (writeVal s v) r

/-- Translation of `streamprint::print`: delegates to `print_h`. -/
def print (s : St) (vs : List Value) : St := printH s vs

/-- The characters each successive value insertion appends to the sink:
the padded rendering of each value under the formatting state as it
evolves left to right. -/
def pieces (s : St) : List Value → List (List Char)
  | [] => []
  | v :: r => pad s (raw v) :: pieces (writeVal s v) r

/-- C `isspace` in the default locale: space and the five control
whitespace characters 9..13. -/
def isSpaceC (c : Char) : Bool := c.toNat == 32 || (9 ≤ c.toNat && c.toNat ≤ 13)

/-- Decimal digit test, as C `isdigit`. -/
def isDigitC (c : Char) : Bool := 48 ≤ c.toNat && c.toNat ≤ 57

/-- Value of a digit string. -/
def digitsVal (l : List Char) : Nat := l.foldl (fun n c => n * 10 + (c.toNat - 48)) 0

/-- C `atoi`: skip whitespace, optional sign, then leading digits; returns
0 when no digits are present. -/
def atoi (l : List Char) : Int :=
  match l.dropWhile isSpaceC with
  | [] => 0
  | c :: t =>
    if c = '-' then - (digitsVal (t.takeWhile isDigitC) : Int)
    else if c = '+' then (digitsVal (t.takeWhile isDigitC) : Int)
    else (digitsVal ((c :: t).takeWhile isDigitC) : Int)

/-- C `strchr` on a NUL-free character list, split form: `some (pre, post)`
when the list is `pre ++ c :: post` with `c ∉ pre`, else `none`. -/
def splitFirst (c : Char) : List Char → Option (List Char × List Char)
  | [] => none
  | a :: t => if a = c then some ([], t) else (splitFirst c t).map (fun pq => (a :: pq.1, pq.2))

/-- The `setopt` lambda of `setOpts`: locate the first occurrence of the
directive letter `c` in the placeholder body; if the character just before
it is `'f'` (the occurrence was consumed as a fill argument), re-search for
the next occurrence; return the argument suffix following the used marker,
or `none` when the directive is not applied. -/
def setoptSuffix (body : List Char) (c : Char) : Option (List Char) :=
  match splitFirst c body with
  | none => none
  | some pq =>
    if pq.1.getLast? = some 'f' then
      match splitFirst c pq.2 with
      | none => none
      | some pq2 => some pq2.2
    else some pq.2

/-- The `switch` on the character after `'m'`: `x` fixed, `s` scientific,
`h` hexfloat, `d` defaultfloat, anything else (including the terminator)
leaves the notation unchanged. -/
def mApply (c : Char) (f0 : FFmt) : FFmt :=
  if c = 'x' then .ffixed
  else if c = 's' then .fsci
  else if c = 'h' then .fhex
  else if c = 'd' then .fdefault
  else f0

/-- The `'w'` branch of `setOpts`: `out << std::setw(atoi(o))`. -/
def applyW (s : St) (b : List Char) : St :=
  match setoptSuffix b 'w' with
  | some a => { s with width := atoi a }
  | none => s

/-- The `'p'` branch of `setOpts`: `out << std::setprecision(atoi(o))`. -/
def applyP (s : St) (b : List Char) : St :=
  match setoptSuffix b 'p' with
  | some a => { s with prec := atoi a }
  | none => s

/-- The `'m'` branch of `setOpts`: switch on the argument character. -/
def applyM (s : St) (b : List Char) : St :=
  match setoptSuffix b 'm' with
  | some a => { s with ffmt := mApply (a.headD cNul) s.ffmt }
  | none => s

/-- The `'f'` branch of `setOpts`: `out << std::setfill(*(opt + 1))`; no
re-scan here, and at the end of the body the argument read is the NUL
terminator. -/
def applyF (s : St) (b : List Char) : St :=
  match splitFirst 'f' b with
  | some pq => { s with fill := pq.2.headD cNul }
  | none => s

/-- The `'L'` branch of `setOpts`: `out << std::left` when present. -/
def applyL (s : St) (b : List Char) : St :=
  if b.contains 'L' then { s with adjust := .aleft } else s

/-- The `'R'` branch of `setOpts`: `out << std::right` when present. -/
def applyR (s : St) (b : List Char) : St :=
  if b.contains 'R' then { s with adjust := .aright } else s

/-- Translation of `detail::setOpts`: apply the six directive branches to
the sink state in the fixed source order `w`, `p`, `m`, `f`, `L`, `R`. -/
def setOpts (s : St) (b : List Char) : St :=
  applyR (applyL (applyF (applyM (applyP (applyW s b) b) b) b) b) b

/-- Offset of the first occurrence of `c`, as C `strchr` relative to the
string start. -/
def firstIdx (c : Char) : List Char → Option Nat
  | [] => none
  | a :: t => if a = c then some 0 else (firstIdx c t).map (· + 1)

/-- Translation of `detail::checkSetOpts`.  The C function takes a pointer
into the private format buffer (or null) and mutates the buffer; here the
pointer is an optional offset `pos` into `buf`, and the function returns
the new sink state, the updated buffer, and the advanced cursor.  One step:
find the first `'{'` and `'}'` at or after the cursor, overwrite both with
the NUL terminator, emit the text before the first terminator (`out << f`),
parse the directives after the `'{'` (`setOpts`), advance the cursor past
the `'}'` (or to null when there is none), then write `char(1)` over both
brace positions. -/
def checkSetOpts (out : St) (buf : List Char) (pos : Option Nat) : St × List Char × Option Nat :=
  match pos with
  | none => (out, buf, none)
  | some p =>
    let s := buf.drop p
    let b1 := firstIdx '{' s
    let b2 := firstIdx '}' s
    let i1 := b1.getD s.length
    let i2 := b2.getD s.length
    let out1 := writeStr out (s.take (min i1 i2))
    let out2 :=
      match b1 with
      | none => out1
      | some i => setOpts out1 (if i < i2 then (s.drop (i + 1)).take (i2 - (i + 1)) else s.drop (i + 1))
    let s1 := match b1 with | some i => s.set i cOne | none => s
    let s2 := match b2 with | some j => s1.set j cOne | none => s1
    (out2, buf.take p ++ s2, b2.map (fun j => p + j + 1))

/-- Translation of `detail::fprint_h`: one `checkSetOpts` step before each
value, and exactly one more step after the last value (the arity-0
overload performs a single `checkSetOpts` call). -/
def fprintH (out : St) (buf : List Char) (pos : Option Nat) : List Value → St × List Char
  | [] =>
    let r := checkSetOpts out buf pos
    (r.1, r.2.1)
  | v :: rest =>
    let r := checkSetOpts out buf pos
    fprintH (writeVal r.1 v) r.2.1 r.2.2 rest

/-- The `fprint` overload for a compile-time literal of size `N > 1`: copy
the format into a private buffer and run `fprint_h` from its start. -/
def fprintN (out : St) (f : List Char) (vs : List Value) : St :=
  (fprintH out f (some 0) vs).1

/-- The `fprint` overload for the length-1 (empty) literal: delegates
directly to the unformatted `print_h`. -/
def fprintOne (out : St) (vs : List Value) : St := printH out vs

/-- The `fprint` overload for a run-time `char *` format: `slen` is
`strlen(f) + 1`, which is never zero, so the copy-and-`fprint_h` branch is
always taken (the trailing `print` fallback is dead code). -/
def fprintPtr (out : St) (f : List Char) (vs : List Value) : St :=
  (fprintH out f (some 0) vs).1

/-- The net effect of one `checkSetOpts` step on the scanned region of the
buffer: the first-found brace positions end up holding `char(1)`; nothing
else is touched. -/
def braceMark (s : List Char) : List Char :=
  let s1 := match firstIdx '{' s with | some i => s.set i cOne | none => s
  match firstIdx '}' s with | some j => s1.set j cOne | none => s1

/-! Directive lists, used to settle the order-independence claim about
`setOpts`.  A placeholder body is rendered from an abstract list of
directives; the claim compares the parse of two renderings that are
permutations of the same directives. -/

/-- Abstract directives of the placeholder mini-language. -/
inductive FDir where
  | dwidth (a : List Char)
  | dprec (a : List Char)
  | dnot (c : Char)
  | dfill (c : Char)
  | dleft
  | dright
deriving DecidableEq

/-- The directive letter that introduces a directive. -/
def marker : FDir → Char
  | .dwidth _ => 'w'
  | .dprec _ => 'p'
  | .dnot _ => 'm'
  | .dfill _ => 'f'
  | .dleft => 'L'
  | .dright => 'R'

/-- The argument characters following the marker. -/
def argOf : FDir → List Char
  | .dwidth a => a
  | .dprec a => a
  | .dnot c => [c]
  | .dfill c => [c]
  | .dleft => []
  | .dright => []

/-- The textual form of one directive. -/
def render (d : FDir) : List Char := marker d :: argOf d

/-- The placeholder body spelling out a list of directives in order. -/
def renderList (l : List FDir) : List Char := (l.map render).flatten

/-- The six directive letters. -/
def letters : List Char := ['w', 'p', 'm', 'f', 'L', 'R']

/-- Well-formed directive arguments: integer arguments are nonempty digit
strings, and fill/notation argument characters are not directive letters
(otherwise the disambiguation heuristic of the parser can misfire, see the
counterexample). -/
def argWFb : FDir → Bool
  | .dwidth a => decide (a ≠ []) && a.all isDigitC
  | .dprec a => decide (a ≠ []) && a.all isDigitC
  | .dnot c => decide (c ∉ letters)
  | .dfill c => decide (c ∉ letters)
  | .dleft => true
  | .dright => true

/-- Split a directive list at the first directive carrying letter `c`. -/
def splitD (c : Char) : List FDir → Option (List FDir × FDir × List FDir)
  | [] => none
  | d :: t =>
    if marker d = c then some ([], d, t)
    else (splitD c t).map (fun x => (d :: x.1, x.2.1, x.2.2))

/-- The first directive carrying letter `c`, if any. -/
def getD (c : Char) (l : List FDir) : Option FDir := (splitD c l).map (fun x => x.2.1)

/-- Order-independent semantics of a directive list: apply at most one
directive of each kind (the first of its kind), always in the fixed order
width, precision, notation, fill, left, right. -/
def applySem (s : St) (l : List FDir) : St :=
  let s1 := match getD 'w' l with
    | some (.dwidth a) => { s with width := (digitsVal a : Int) }
    | _ => s
  let s2 := match getD 'p' l with
    | some (.dprec a) => { s1 with prec := (digitsVal a : Int) }
    | _ => s1
  let s3 := match getD 'm' l with
    | some (.dnot c) => { s2 with ffmt := mApply c s2.ffmt }
    | _ => s2
  let s4 := match getD 'f' l with
    | some (.dfill c) => { s3 with fill := c }
    | _ => s3
  let s5 := if FDir.dleft ∈ l then { s4 with adjust := .aleft } else s4
  if FDir.dright ∈ l then { s5 with adjust := .aright } else s5

/-! Helper lemmas about the scanning primitives. -/

theorem splitFirst_cons (c a : Char) (t : List Char) :
    splitFirst c (a :: t) =
      if a = c then some ([], t) else (splitFirst c t).map (fun pq => (a :: pq.1, pq.2)) := rfl

theorem splitFirst_eq_none (c : Char) (l : List Char) (h : c ∉ l) : splitFirst c l = none := by
  induction l with
  | nil => rfl
  | cons a t ih =>
    rw [List.mem_cons, not_or] at h
    rw [splitFirst_cons, if_neg (fun he => h.1 he.symm), ih h.2]
    rfl

theorem splitFirst_app (c : Char) (u v : List Char) (h : c ∉ u) :
    splitFirst c (u ++ v) = (splitFirst c v).map (fun pq => (u ++ pq.1, pq.2)) := by
  induction u with
  | nil =>
    show splitFirst c v = _
    cases h2 : splitFirst c v <;> simp
  | cons a t ih =>
    rw [List.mem_cons, not_or] at h
    rw [List.cons_append, splitFirst_cons, if_neg (fun he => h.1 he.symm), ih h.2]
    cases h2 : splitFirst c v <;> simp

theorem splitFirst_first (c : Char) (u v : List Char) (h : c ∉ u) :
    splitFirst c (u ++ c :: v) = some (u, v) := by
  rw [splitFirst_app c u _ h, splitFirst_cons, if_pos rfl]
  simp

theorem setoptSuffix_of_not_mem (b : List Char) (c : Char) (h : c ∉ b) :
    setoptSuffix b c = none := by
  unfold setoptSuffix
  rw [splitFirst_eq_none c b h]

theorem setoptSuffix_plain (c : Char) (u v : List Char) (hu : c ∉ u)
    (hf : u.getLast? ≠ some 'f') : setoptSuffix (u ++ c :: v) c = some v := by
  unfold setoptSuffix
  rw [splitFirst_first c u v hu]
  simp [hf]

theorem setoptSuffix_rescan (c : Char) (u v : List Char) (hu : c ∉ u)
    (hf : u.getLast? = some 'f') :
    setoptSuffix (u ++ c :: v) c = (splitFirst c v).map (fun pq => pq.2) := by
  unfold setoptSuffix
  rw [splitFirst_first c u v hu]
  simp [hf]
  cases splitFirst c v <;> rfl

theorem firstIdx_cons (c a : Char) (t : List Char) :
    firstIdx c (a :: t) = if a = c then some 0 else (firstIdx c t).map (· + 1) := rfl

theorem firstIdx_eq_none (c : Char) (l : List Char) (h : c ∉ l) : firstIdx c l = none := by
  induction l with
  | nil => rfl
  | cons a t ih =>
    rw [List.mem_cons, not_or] at h
    rw [firstIdx_cons, if_neg (fun he => h.1 he.symm), ih h.2]
    rfl

theorem firstIdx_first (c : Char) (u v : List Char) (h : c ∉ u) :
    firstIdx c (u ++ c :: v) = some u.length := by
  induction u with
  | nil => simp [firstIdx_cons]
  | cons a t ih =>
    rw [List.mem_cons, not_or] at h
    rw [List.cons_append, firstIdx_cons, if_neg (fun he => h.1 he.symm), ih h.2]
    rfl

theorem firstIdx_lt_length (c : Char) :
    ∀ (l : List Char) (i : Nat), firstIdx c l = some i → i < l.length := by
  intro l
  induction l with
  | nil => intro i h; simp [firstIdx] at h
  | cons a t ih =>
    intro i h
    rw [firstIdx_cons] at h
    by_cases ha : a = c
    · rw [if_pos ha] at h
      cases h
      simp
    · rw [if_neg ha] at h
      cases ht : firstIdx c t with
      | none => rw [ht] at h; simp at h
      | some n =>
        rw [ht] at h
        simp at h
        have := ih n ht
        simp [List.length_cons]
        omega

theorem firstIdx_get (c : Char) :
    ∀ (l : List Char) (i : Nat), firstIdx c l = some i → l.get? i = some c := by
  intro l
  induction l with
  | nil => intro i h; simp [firstIdx] at h
  | cons a t ih =>
    intro i h
    rw [firstIdx_cons] at h
    by_cases ha : a = c
    · rw [if_pos ha] at h
      cases h
      simp [ha]
    · rw [if_neg ha] at h
      cases ht : firstIdx c t with
      | none => rw [ht] at h; simp at h
      | some n =>
        rw [ht] at h
        simp at h
        subst h
        simpa using ih n ht

/-! Field-tracking lemmas for the six directive branches of `setOpts`. -/

theorem applyW_keeps (s : St) (b : List Char) :
    (applyW s b).prec = s.prec ∧ (applyW s b).ffmt = s.ffmt ∧ (applyW s b).fill = s.fill ∧
    (applyW s b).adjust = s.adjust ∧ (applyW s b).content = s.content := by
  unfold applyW; cases setoptSuffix b 'w' <;> exact ⟨rfl, rfl, rfl, rfl, rfl⟩

theorem applyP_keeps (s : St) (b : List Char) :
    (applyP s b).width = s.width ∧ (applyP s b).ffmt = s.ffmt ∧ (applyP s b).fill = s.fill ∧
    (applyP s b).adjust = s.adjust ∧ (applyP s b).content = s.content := by
  unfold applyP; cases setoptSuffix b 'p' <;> exact ⟨rfl, rfl, rfl, rfl, rfl⟩

theorem applyM_keeps (s : St) (b : List Char) :
    (applyM s b).width = s.width ∧ (applyM s b).prec = s.prec ∧ (applyM s b).fill = s.fill ∧
    (applyM s b).adjust = s.adjust ∧ (applyM s b).content = s.content := by
  unfold applyM; cases setoptSuffix b 'm' <;> exact ⟨rfl, rfl, rfl, rfl, rfl⟩

theorem applyF_keeps (s : St) (b : List Char) :
    (applyF s b).width = s.width ∧ (applyF s b).prec = s.prec ∧ (applyF s b).ffmt = s.ffmt ∧
    (applyF s b).adjust = s.adjust ∧ (applyF s b).content = s.content := by
  unfold applyF; cases splitFirst 'f' b <;> exact ⟨rfl, rfl, rfl, rfl, rfl⟩

theorem applyL_keeps (s : St) (b : List Char) :
    (applyL s b).width = s.width ∧ (applyL s b).prec = s.prec ∧ (applyL s b).ffmt = s.ffmt ∧
    (applyL s b).fill = s.fill ∧ (applyL s b).content = s.content := by
  unfold applyL; split <;> exact ⟨rfl, rfl, rfl, rfl, rfl⟩

theorem applyR_keeps (s : St) (b : List Char) :
    (applyR s b).width = s.width ∧ (applyR s b).prec = s.prec ∧ (applyR s b).ffmt = s.ffmt ∧
    (applyR s b).fill = s.fill ∧ (applyR s b).content = s.content := by
  unfold applyR; split <;> exact ⟨rfl, rfl, rfl, rfl, rfl⟩

theorem setOpts_width (s : St) (b : List Char) :
    (setOpts s b).width =
      match setoptSuffix b 'w' with | some a => atoi a | none => s.width := by
  unfold setOpts
  rw [(applyR_keeps _ _).1, (applyL_keeps _ _).1, (applyF_keeps _ _).1, (applyM_keeps _ _).1,
    (applyP_keeps _ _).1]
  unfold applyW
  cases setoptSuffix b 'w' <;> rfl

theorem setOpts_prec (s : St) (b : List Char) :
    (setOpts s b).prec =
      match setoptSuffix b 'p' with | some a => atoi a | none => s.prec := by
  unfold setOpts
  rw [(applyR_keeps _ _).2.1, (applyL_keeps _ _).2.1, (applyF_keeps _ _).2.1,
    (applyM_keeps _ _).2.1]
  unfold applyP
  cases setoptSuffix b 'p'
  · exact (applyW_keeps s b).1
  · rfl

theorem setOpts_ffmt (s : St) (b : List Char) :
    (setOpts s b).ffmt =
      match setoptSuffix b 'm' with
      | some a => mApply (a.headD cNul) s.ffmt
      | none => s.ffmt := by
  unfold setOpts
  rw [(applyR_keeps _ _).2.2.1, (applyL_keeps _ _).2.2.1, (applyF_keeps _ _).2.2.1]
  unfold applyM
  cases setoptSuffix b 'm'
  · show (applyP (applyW s b) b).ffmt = s.ffmt
    rw [(applyP_keeps _ _).2.1, (applyW_keeps _ _).2.1]
  · show mApply _ (applyP (applyW s b) b).ffmt = _
    rw [(applyP_keeps _ _).2.1, (applyW_keeps _ _).2.1]

theorem setOpts_fill (s : St) (b : List Char) :
    (setOpts s b).fill =
      match splitFirst 'f' b with
      | some pq => pq.2.headD cNul
      | none => s.fill := by
  unfold setOpts
  rw [(applyR_keeps _ _).2.2.2.1, (applyL_keeps _ _).2.2.2.1]
  unfold applyF
  cases splitFirst 'f' b
  · show (applyM (applyP (applyW s b) b) b).fill = s.fill
    rw [(applyM_keeps _ _).2.2.1, (applyP_keeps _ _).2.2.1, (applyW_keeps _ _).2.2.1]
  · rfl

theorem setOpts_adjust (s : St) (b : List Char) :
    (setOpts s b).adjust =
      if b.contains 'R' then Adjust.aright
      else if b.contains 'L' then Adjust.aleft else s.adjust := by
  unfold setOpts applyR applyL
  by_cases hR : b.contains 'R' = true
  · simp only [if_pos hR]
  · by_cases hL : b.contains 'L' = true
    · simp only [if_neg hR, if_pos hL]
    · simp only [if_neg hR, if_neg hL]
      rw [(applyF_keeps _ _).2.2.2.1, (applyM_keeps _ _).2.2.2.1, (applyP_keeps _ _).2.2.2.1,
        (applyW_keeps _ _).2.2.2.1]

theorem setOpts_content (s : St) (b : List Char) : (setOpts s b).content = s.content := by
  unfold setOpts
  rw [(applyR_keeps _ _).2.2.2.2, (applyL_keeps _ _).2.2.2.2, (applyF_keeps _ _).2.2.2.2,
    (applyM_keeps _ _).2.2.2.2, (applyP_keeps _ _).2.2.2.2, (applyW_keeps _ _).2.2.2.2]

/-! Helper lemmas about writes and the recursion structure. -/

theorem pad_zero (s : St) (l : List Char) (h : s.width = 0) : pad s l = l := by
  unfold pad padCount
  rw [h]
  have hz : ((0 : Int) - (l.length : Int)).toNat = 0 := by omega
  rw [hz]
  cases s.adjust <;> simp

theorem writeStr_nil (s : St) (h : s.width = 0) : writeStr s [] = s := by
  unfold writeStr
  rw [pad_zero s [] h]
  cases s with
  | mk c w p fl ff ad =>
    simp at h
    simp [h]

theorem printH_content (vs : List Value) : ∀ s : St,
    (printH s vs).content = s.content ++ (pieces s vs).flatten := by
  induction vs with
  | nil => intro s; simp [printH, pieces]
  | cons v r ih =>
    intro s
    show (printH (writeVal s v) r).content = s.content ++ (pieces s (v :: r)).flatten
    rw [ih, show pieces s (v :: r) = pad s (raw v) :: pieces (writeVal s v) r from rfl,
      show (writeVal s v).content = s.content ++ pad s (raw v) from rfl]
    simp [List.append_assoc]

theorem fprintH_nonePos (vs : List Value) : ∀ (out : St) (buf : List Char),
    (fprintH out buf none vs).1 = printH out vs := by
  induction vs with
  | nil => intro out buf; rfl
  | cons v rest ih =>
    intro out buf
    show (fprintH (writeVal out v) buf none rest).1 = _
    rw [ih]
    rfl

/-- One placeholder step of `checkSetOpts` when both braces are found with
the `'{'` first: emit the literal text before the `'{'`, then apply the
directives between the braces. -/
theorem checkSetOpts_step (out : St) (buf : List Char) (p i j : Nat)
    (hb1 : firstIdx '{' (buf.drop p) = some i) (hb2 : firstIdx '}' (buf.drop p) = some j)
    (hij : i < j) :
    (checkSetOpts out buf (some p)).1 =
      setOpts (writeStr out ((buf.drop p).take i))
        (((buf.drop p).drop (i + 1)).take (j - (i + 1))) := by
  simp only [checkSetOpts]
  rw [hb1, hb2]
  simp only [Option.getD_some]
  rw [min_eq_left hij.le, if_pos hij]

/-- C1: for every sink and every value sequence, `print` appends exactly
the concatenation, in argument order, of the values' stream
representations, where each representation is the sink's own insertion
output under the formatting state current at that point; there is no
separator and no other text, and with zero values nothing is written. -/
theorem spec_c1 (s : St) (vs : List Value) :
    (print s vs).content = s.content ++ (pieces s vs).flatten ∧ print s [] = s :=
  ⟨printH_content vs s, rfl⟩

/-- C2 counterexample: on a sink whose field width is preset to 3 the
run-time empty-format path of `fprint` differs from `print` on the same
sink and values, because its first scan step performs an empty formatted
insertion (`out << f` on the empty string) which consumes the pending
width by emitting pure padding. -/
theorem spec_c2_cex :
    fprintPtr { st0 with width := 3 } [] [Value.vint 5] ≠
      print { st0 with width := 3 } [Value.vint 5] := by decide

/-- C2 amended: for the empty format string, `fprint` appends the same
output as `print` on the same sink and values, provided the sink has no
pending field width (its `width` is 0, the default); the length-1 literal
overload delegates to the unformatted writer unconditionally. -/
theorem spec_c2_amended (s : St) (vs : List Value) (h : s.width = 0) :
    fprintPtr s [] vs = print s vs ∧ fprintOne s vs = print s vs := by
  constructor
  · have hc : checkSetOpts s [] (some 0) = (s, [], none) := by
      simp [checkSetOpts, firstIdx, writeStr_nil s h]
    cases vs with
    | nil =>
      show (fprintH s [] (some 0) []).1 = printH s []
      simp [fprintH, hc, printH]
    | cons v rest =>
      show (fprintH s [] (some 0) (v :: rest)).1 = printH s (v :: rest)
      simp [fprintH, hc, fprintH_nonePos, printH]
  · rfl

/-- C2 amended witness at a concrete sink and value list. -/
theorem spec_c2_amended_witness :
    st0.width = 0 ∧ fprintPtr st0 [] [Value.vint 5] = print st0 [Value.vint 5] :=
  ⟨rfl, (spec_c2_amended st0 [Value.vint 5] rfl).1⟩

/-- C3 evaluated at the failing input: with zero values and format
`"{w5}X"` the single trailing `checkSetOpts` step applies the width
directive but the trailing literal `X` (everything after the first
remaining closing brace) is never written: the output is empty, though
both the claim and the header comment of the source promise the remainder
of the format string is flushed. -/
theorem spec_c3_eval :
    (fprintN st0 ['{', 'w', '5', '}', 'X'] []).content = [] ∧
      (fprintN st0 ['{', 'w', '5', '}', 'X'] []).width = 5 := by decide

/-- C4 counterexample: the format string `"ab}c"` contains no placeholder
(it has no `'{'` at all), yet the output of `fprint` with value 7 is
`"ab7c"`, not the literal format string followed by `"7"`: the scanner
treats the lone `'}'` as a placeholder end, drops it, and resumes after
it. -/
theorem spec_c4_cex :
    (fprintPtr st0 ['a', 'b', '}', 'c'] [Value.vint 7]).content ≠
      ['a', 'b', '}', 'c'] ++ raw (Value.vint 7) := by decide

/-- C4 amended: for every format string containing neither `'{'` nor
`'}'` and a sink with no pending field width, the output of `fprint` is
the literal format string followed by the concatenation of the values'
representations. -/
theorem spec_c4_amended (s : St) (f : List Char) (vs : List Value)
    (h1 : '{' ∉ f) (h2 : '}' ∉ f) (h0 : s.width = 0) :
    (fprintPtr s f vs).content =
      s.content ++ f ++ (pieces (writeStr s f) vs).flatten := by
  have hc : checkSetOpts s f (some 0) = (writeStr s f, f, none) := by
    simp [checkSetOpts, firstIdx_eq_none '{' f h1, firstIdx_eq_none '}' f h2]
  have hwc : (writeStr s f).content = s.content ++ f := by
    unfold writeStr
    rw [pad_zero s f h0]
  cases vs with
  | nil =>
    show (fprintH s f (some 0) []).1.content = _
    simp [fprintH, hc, hwc, pieces]
  | cons v rest =>
    show (fprintH s f (some 0) (v :: rest)).1.content = _
    simp only [fprintH, hc]
    rw [fprintH_nonePos, printH_content,
      show pieces (writeStr s f) (v :: rest) =
        pad (writeStr s f) (raw v) :: pieces (writeVal (writeStr s f) v) rest from rfl,
      show (writeVal (writeStr s f) v).content =
        (writeStr s f).content ++ pad (writeStr s f) (raw v) from rfl, hwc]
    simp [List.append_assoc]

/-- C4 amended witness at a concrete format and value. -/
theorem spec_c4_amended_witness :
    ('{' ∉ ['a', 'b']) ∧ ('}' ∉ ['a', 'b']) ∧ st0.width = 0 ∧
      (fprintPtr st0 ['a', 'b'] [Value.vint 7]).content =
        st0.content ++ ['a', 'b'] ++ (pieces (writeStr st0 ['a', 'b']) [Value.vint 7]).flatten :=
  ⟨by decide, by decide, rfl,
    spec_c4_amended st0 ['a', 'b'] [Value.vint 7] (by decide) (by decide) rfl⟩

/-- C6: when the first occurrence of a `w`/`p`/`m` directive letter in a
placeholder body is immediately preceded by `'f'`, the parser re-searches
and uses the next occurrence of the same letter as the marker, reading the
argument after it; when no later occurrence exists the directive is not
applied at all.  Stated for each of the three letters, with the body
decomposed as `u ++ letter :: v` around the first occurrence. -/
theorem spec_c6 (s : St) (u v p1 q1 : List Char) :
    (('w' ∉ u) → u.getLast? = some 'f' → ('w' ∉ v) →
      (setOpts s (u ++ 'w' :: v)).width = s.width) ∧
    (('w' ∉ u) → u.getLast? = some 'f' → v = p1 ++ 'w' :: q1 → ('w' ∉ p1) →
      (setOpts s (u ++ 'w' :: v)).width = atoi q1) ∧
    (('p' ∉ u) → u.getLast? = some 'f' → ('p' ∉ v) →
      (setOpts s (u ++ 'p' :: v)).prec = s.prec) ∧
    (('p' ∉ u) → u.getLast? = some 'f' → v = p1 ++ 'p' :: q1 → ('p' ∉ p1) →
      (setOpts s (u ++ 'p' :: v)).prec = atoi q1) ∧
    (('m' ∉ u) → u.getLast? = some 'f' → ('m' ∉ v) →
      (setOpts s (u ++ 'm' :: v)).ffmt = s.ffmt) ∧
    (('m' ∉ u) → u.getLast? = some 'f' → v = p1 ++ 'm' :: q1 → ('m' ∉ p1) →
      (setOpts s (u ++ 'm' :: v)).ffmt = mApply (q1.headD cNul) s.ffmt) := by
  refine ⟨?_, ?_, ?_, ?_, ?_, ?_⟩
  · intro h1 h2 h3
    rw [setOpts_width, setoptSuffix_rescan 'w' u v h1 h2, splitFirst_eq_none 'w' v h3]
    rfl
  · intro h1 h2 h3 h4
    subst h3
    rw [setOpts_width, setoptSuffix_rescan 'w' u _ h1 h2, splitFirst_first 'w' p1 q1 h4]
    rfl
  · intro h1 h2 h3
    rw [setOpts_prec, setoptSuffix_rescan 'p' u v h1 h2, splitFirst_eq_none 'p' v h3]
    rfl
  · intro h1 h2 h3 h4
    subst h3
    rw [setOpts_prec, setoptSuffix_rescan 'p' u _ h1 h2, splitFirst_first 'p' p1 q1 h4]
    rfl
  · intro h1 h2 h3
    rw [setOpts_ffmt, setoptSuffix_rescan 'm' u v h1 h2, splitFirst_eq_none 'm' v h3]
    rfl
  · intro h1 h2 h3 h4
    subst h3
    rw [setOpts_ffmt, setoptSuffix_rescan 'm' u _ h1 h2, splitFirst_first 'm' p1 q1 h4]
    rfl

/-- C6 witness: in body `fwx` the `w` was consumed as the fill argument
and no later `w` exists, so no width is applied; in body `fw9w6` the
parser re-searches and uses the second `w`, reading width 6. -/
theorem spec_c6_witness :
    (setOpts st0 ['f', 'w', 'x']).width = 0 ∧
      (setOpts st0 ['f', 'w', '9', 'w', '6']).width = 6 := by
  constructor
  · exact ((spec_c6 st0 ['f'] ['x'] [] []).1 (by decide) (by decide) (by decide)).trans rfl
  · exact ((spec_c6 st0 ['f'] ['9', 'w', '6'] ['9'] ['6']).2.1 (by decide) (by decide) rfl
      (by decide)).trans (by decide)

/-- C7: for `fprint(out, "{f*w6}", 5)` on a fresh sink, the placeholder
sets the fill character to `'*'` and the field width to 6 before the
value is written, and the appended output is the value 5 padded with
`'*'` to width 6 under the default (front-padding) alignment. -/
theorem spec_c7 :
    (checkSetOpts st0 ['{', 'f', '*', 'w', '6', '}'] (some 0)).1.fill = '*' ∧
      (checkSetOpts st0 ['{', 'f', '*', 'w', '6', '}'] (some 0)).1.width = 6 ∧
      (fprintN st0 ['{', 'f', '*', 'w', '6', '}'] [Value.vint 5]).content =
        ['*', '*', '*', '*', '*', '5'] := by decide

/-- C9: each directive letter is applied at most once per placeholder
body: the first occurrence (not preceded by `'f'`) determines the applied
argument, so any later duplicate occurrence of the same letter is ignored
(the integer argument parse stops at the first non-digit, the fill and
notation arguments are single characters, and alignment depends only on
membership); e.g. `w5w7` sets width `atoi "5w7" = 5`, not 7. -/
theorem spec_c9 (s : St) (u v b : List Char) :
    (('w' ∉ u) → u.getLast? ≠ some 'f' → (setOpts s (u ++ 'w' :: v)).width = atoi v) ∧
    (('p' ∉ u) → u.getLast? ≠ some 'f' → (setOpts s (u ++ 'p' :: v)).prec = atoi v) ∧
    (('m' ∉ u) → u.getLast? ≠ some 'f' →
      (setOpts s (u ++ 'm' :: v)).ffmt = mApply (v.headD cNul) s.ffmt) ∧
    (('f' ∉ u) → (setOpts s (u ++ 'f' :: v)).fill = v.headD cNul) ∧
    ((setOpts s b).adjust =
      if b.contains 'R' then Adjust.aright
      else if b.contains 'L' then Adjust.aleft else s.adjust) := by
  refine ⟨?_, ?_, ?_, ?_, setOpts_adjust s b⟩
  · intro h1 h2
    rw [setOpts_width, setoptSuffix_plain 'w' u v h1 h2]
  · intro h1 h2
    rw [setOpts_prec, setoptSuffix_plain 'p' u v h1 h2]
  · intro h1 h2
    rw [setOpts_ffmt, setoptSuffix_plain 'm' u v h1 h2]
  · intro h1
    rw [setOpts_fill, splitFirst_first 'f' u v h1]

/-- C9 witness: `w5w7` sets width 5 (the second `w` run is ignored by the
integer parse), and `f*f+` sets fill `'*'` from the first `f`. -/
theorem spec_c9_witness :
    (setOpts st0 ['w', '5', 'w', '7']).width = 5 ∧
      (setOpts st0 ['f', '*', 'f', '+']).fill = '*' := by
  constructor
  · exact ((spec_c9 st0 [] ['5', 'w', '7'] []).1 (by decide) (by decide)).trans (by decide)
  · exact ((spec_c9 st0 [] ['*', 'f', '+'] []).2.2.2.1 (by decide)).trans (by decide)

/-- C10: when `'f'` is the last character of a placeholder body, the fill
directive still fires and reads the character one past the body, which is
the NUL terminator that temporarily replaced the closing `'}'` during the
scan: the sink's fill character becomes `char(0)`. -/
theorem spec_c10 (s : St) (p1 : List Char)
    (h1 : 'f' ∉ p1) (h2 : '{' ∉ p1) (h3 : '}' ∉ p1) :
    ((checkSetOpts s ('{' :: p1 ++ ['f', '}']) (some 0)).1).fill = Char.ofNat 0 := by
  have hnm : '}' ∉ ('{' :: p1) ++ ['f'] := by
    intro hm
    rcases List.mem_append.mp hm with hm | hm
    · rcases List.mem_cons.mp hm with hm | hm
      · exact absurd hm (by decide)
      · exact h3 hm
    · exact absurd hm (by decide)
  have hb1 : firstIdx '{' ((('{' :: p1) ++ ['f', '}']).drop 0) = some 0 := by
    rw [List.drop_zero, List.cons_append, firstIdx_cons, if_pos rfl]
  have hb2 : firstIdx '}' ((('{' :: p1) ++ ['f', '}']).drop 0) = some (p1.length + 2) := by
    rw [List.drop_zero,
      show ('{' :: p1) ++ ['f', '}'] = (('{' :: p1) ++ ['f']) ++ '}' :: [] by simp,
      firstIdx_first '}' _ [] hnm]
    simp
  rw [checkSetOpts_step s _ 0 0 (p1.length + 2) hb1 hb2 (by omega)]
  have hbody :
      (((('{' :: p1) ++ ['f', '}']).drop 0).drop (0 + 1)).take (p1.length + 2 - (0 + 1)) =
      p1 ++ 'f' :: [] := by
    rw [List.drop_zero, List.cons_append]
    show (p1 ++ ['f', '}']).take (p1.length + 2 - 1) = p1 ++ ['f']
    rw [show p1 ++ ['f', '}'] = (p1 ++ ['f']) ++ ['}'] by simp,
      show p1.length + 2 - 1 = (p1 ++ ['f']).length by simp]
    exact List.take_left _ _
  rw [hbody, setOpts_fill, splitFirst_first 'f' p1 [] h1]
  rfl

/-- C10 witness: the placeholder `{f}` sets the fill character to NUL. -/
theorem spec_c10_witness :
    ((checkSetOpts st0 ['{', 'f', '}'] (some 0)).1).fill = Char.ofNat 0 :=
  spec_c10 st0 [] (by decide) (by decide) (by decide)

theorem checkSetOpts_buf (out : St) (buf : List Char) (p : Nat) :
    (checkSetOpts out buf (some p)).2.1 = buf.take p ++ braceMark (buf.drop p) := by
  simp only [checkSetOpts, braceMark]

theorem braceMark_get_other (s : List Char) (n : Nat)
    (h1 : ∀ i, firstIdx '{' s = some i → n ≠ i)
    (h2 : ∀ j, firstIdx '}' s = some j → n ≠ j) :
    (braceMark s).get? n = s.get? n := by
  unfold braceMark
  cases hb1 : firstIdx '{' s <;> cases hb2 : firstIdx '}' s
  · rfl
  · exact List.get?_set_ne _ _ (fun he => h2 _ hb2 he.symm)
  · exact List.get?_set_ne _ _ (fun he => h1 _ hb1 he.symm)
  · rw [List.get?_set_ne _ _ (fun he => h2 _ hb2 he.symm),
      List.get?_set_ne _ _ (fun he => h1 _ hb1 he.symm)]

theorem braceMark_get_open (s : List Char) (i : Nat) (hb1 : firstIdx '{' s = some i) :
    (braceMark s).get? i = some cOne := by
  unfold braceMark
  rw [hb1]
  cases hb2 : firstIdx '}' s with
  | none => exact List.get?_set_eq_of_lt _ (firstIdx_lt_length _ _ _ hb1)
  | some j =>
    have hne : j ≠ i := by
      intro he
      subst he
      have g1 := firstIdx_get '{' s j hb1
      have g2 := firstIdx_get '}' s j hb2
      rw [g1] at g2
      exact absurd (Option.some.inj g2) (by decide)
    rw [List.get?_set_ne _ _ hne]
    exact List.get?_set_eq_of_lt _ (firstIdx_lt_length _ _ _ hb1)

theorem braceMark_get_close (s : List Char) (j : Nat) (hb2 : firstIdx '}' s = some j) :
    (braceMark s).get? j = some cOne := by
  unfold braceMark
  rw [hb2]
  cases hb1 : firstIdx '{' s
  · exact List.get?_set_eq_of_lt _ (firstIdx_lt_length _ _ _ hb2)
  · refine List.get?_set_eq_of_lt _ ?_
    rw [List.length_set]
    exact firstIdx_lt_length _ _ _ hb2

/-- C8 counterexample: after the scan step, the brace bytes of the buffer
do not hold their original `'{'`/`'}'` characters (they hold `char(1)`):
the buffer differs from the original. -/
theorem spec_c8_cex :
    (checkSetOpts st0 ['a', '{', 'w', '}', 'b'] (some 0)).2.1 ≠
      ['a', '{', 'w', '}', 'b'] := by decide

/-- C8 amended: a `checkSetOpts` step changes only the first-found `'{'`
and `'}'` bytes at or after the cursor, and those are left holding
`char(1)` rather than being restored to the original brace characters;
every other byte of the buffer is unchanged. -/
theorem spec_c8_amended (out : St) (buf : List Char) (p k : Nat) :
    ((∀ i, firstIdx '{' (buf.drop p) = some i → k ≠ p + i) →
      (∀ j, firstIdx '}' (buf.drop p) = some j → k ≠ p + j) →
      ((checkSetOpts out buf (some p)).2.1).get? k = buf.get? k) ∧
    (∀ i, firstIdx '{' (buf.drop p) = some i →
      ((checkSetOpts out buf (some p)).2.1).get? (p + i) = some cOne) ∧
    (∀ j, firstIdx '}' (buf.drop p) = some j →
      ((checkSetOpts out buf (some p)).2.1).get? (p + j) = some cOne) := by
  rw [checkSetOpts_buf]
  by_cases hp : p ≤ buf.length
  · have hmin : min p buf.length = p := min_eq_left hp
    refine ⟨?_, ?_, ?_⟩
    · intro h1 h2
      rcases lt_or_ge k p with hk | hk
      · rw [List.get?_append (by rw [List.length_take]; omega)]
        exact List.get?_take hk
      · rw [List.get?_append_right (by rw [List.length_take]; omega), List.length_take, hmin,
          braceMark_get_other _ _ (fun i hi he => h1 i hi (by omega))
            (fun j hj he => h2 j hj (by omega)),
          List.get?_drop, show p + (k - p) = k from by omega]
    · intro i hi
      rw [List.get?_append_right (by rw [List.length_take]; omega), List.length_take, hmin,
        show p + i - p = i from by omega]
      exact braceMark_get_open _ i hi
    · intro j hj
      rw [List.get?_append_right (by rw [List.length_take]; omega), List.length_take, hmin,
        show p + j - p = j from by omega]
      exact braceMark_get_close _ j hj
  · have hd : buf.drop p = [] := List.drop_eq_nil_of_le (by omega)
    refine ⟨?_, ?_, ?_⟩
    · intro h1 h2
      rw [hd, List.take_of_length_le (by omega)]
      show (buf ++ braceMark []).get? k = _
      rw [show braceMark [] = [] from rfl, List.append_nil]
    · intro i hi
      rw [hd] at hi
      simp [firstIdx] at hi
    · intro j hj
      rw [hd] at hj
      simp [firstIdx] at hj

/-- C8 amended witness: on the buffer `a{w}b` the byte before the braces
is unchanged and the two brace positions hold `char(1)` after the step. -/
theorem spec_c8_amended_witness :
    ((checkSetOpts st0 ['a', '{', 'w', '}', 'b'] (some 0)).2.1).get? 0 = some 'a' ∧
      ((checkSetOpts st0 ['a', '{', 'w', '}', 'b'] (some 0)).2.1).get? 1 = some cOne ∧
      ((checkSetOpts st0 ['a', '{', 'w', '}', 'b'] (some 0)).2.1).get? 3 = some cOne := by
  refine ⟨?_, ?_, ?_⟩
  · exact ((spec_c8_amended st0 ['a', '{', 'w', '}', 'b'] 0 0).1
      (fun i hi => by
        have h1 : (some 1 : Option Nat) = some i := hi
        cases h1
        decide)
      (fun j hj => by
        have h1 : (some 3 : Option Nat) = some j := hj
        cases h1
        decide)).trans (by decide)
  · exact (spec_c8_amended st0 ['a', '{', 'w', '}', 'b'] 0 0).2.1 1 rfl
  · exact (spec_c8_amended st0 ['a', '{', 'w', '}', 'b'] 0 0).2.2 3 rfl

/-! Character-class facts and structural lemmas about renderings. -/

theorem letter_not_digit (c : Char) (hc : c ∈ letters) : isDigitC c = false := by
  simp [letters] at hc
  rcases hc with rfl | rfl | rfl | rfl | rfl | rfl <;> decide

theorem digit_not_space (x : Char) (h : isDigitC x = true) : isSpaceC x = false := by
  simp [isDigitC] at h
  simp [isSpaceC]
  omega

theorem digit_ne (x y : Char) (h : isDigitC x = true) (hy : isDigitC y = false) : x ≠ y := by
  intro he
  subst he
  simp [h] at hy

theorem marker_mem_letters (d : FDir) : marker d ∈ letters := by
  cases d <;> simp [marker, letters]

theorem arg_not_letter (d : FDir) (hd : argWFb d = true) (c : Char) (hc : c ∈ letters) :
    c ∉ argOf d := by
  cases d with
  | dwidth a =>
    intro hm
    simp [argWFb, List.all_eq_true] at hd
    have := hd.2 c hm
    rw [letter_not_digit c hc] at this
    cases this
  | dprec a =>
    intro hm
    simp [argWFb, List.all_eq_true] at hd
    have := hd.2 c hm
    rw [letter_not_digit c hc] at this
    cases this
  | dnot ch =>
    intro hm
    simp [argWFb] at hd
    rcases List.mem_singleton.mp hm with rfl
    exact hd hc
  | dfill ch =>
    intro hm
    simp [argWFb] at hd
    rcases List.mem_singleton.mp hm with rfl
    exact hd hc
  | dleft => simp [argOf]
  | dright => simp [argOf]

theorem not_mem_render (d : FDir) (hd : argWFb d = true) (c : Char) (hc : c ∈ letters)
    (hm : marker d ≠ c) : c ∉ render d := by
  intro h
  rcases List.mem_cons.mp h with h | h
  · exact hm h.symm
  · exact arg_not_letter d hd c hc h

theorem renderList_cons (d : FDir) (t : List FDir) :
    renderList (d :: t) = render d ++ renderList t := by
  simp [renderList]

theorem renderList_ne_nil (t : List FDir) (h : t ≠ []) : renderList t ≠ [] := by
  cases t with
  | nil => exact absurd rfl h
  | cons d t2 =>
    rw [renderList_cons]
    simp [render]

theorem getLast?_is_mem : ∀ (l : List Char) (y : Char), l.getLast? = some y → y ∈ l := by
  intro l
  induction l with
  | nil => intro y h; simp at h
  | cons a t ih =>
    intro y h
    cases t with
    | nil =>
      rw [List.getLast?_singleton] at h
      cases h
      exact List.mem_singleton_self a
    | cons b u =>
      rw [List.getLast?_cons_cons] at h
      exact List.mem_cons_of_mem a (ih y h)

theorem render_getLast_ne (d : FDir) (hd : argWFb d = true) :
    (render d).getLast? ≠ some 'f' := by
  cases d with
  | dwidth a =>
    simp [argWFb, List.all_eq_true] at hd
    cases a with
    | nil => exact absurd rfl hd.1
    | cons x xs =>
      show (('w' : Char) :: x :: xs).getLast? ≠ some 'f'
      rw [List.getLast?_cons_cons]
      intro h
      have hm := getLast?_is_mem _ _ h
      have := hd.2 'f' hm
      exact absurd this (by decide)
  | dprec a =>
    simp [argWFb, List.all_eq_true] at hd
    cases a with
    | nil => exact absurd rfl hd.1
    | cons x xs =>
      show (('p' : Char) :: x :: xs).getLast? ≠ some 'f'
      rw [List.getLast?_cons_cons]
      intro h
      have hm := getLast?_is_mem _ _ h
      have := hd.2 'f' hm
      exact absurd this (by decide)
  | dnot ch =>
    show (['m', ch] : List Char).getLast? ≠ some 'f'
    rw [List.getLast?_cons_cons, List.getLast?_singleton]
    intro h
    cases h
    simp [argWFb] at hd
    exact hd (by decide)
  | dfill ch =>
    show (['f', ch] : List Char).getLast? ≠ some 'f'
    rw [List.getLast?_cons_cons, List.getLast?_singleton]
    intro h
    cases h
    simp [argWFb] at hd
    exact hd (by decide)
  | dleft => decide
  | dright => decide

theorem renderList_getLast_ne (l : List FDir) (h : ∀ d ∈ l, argWFb d = true) :
    (renderList l).getLast? ≠ some 'f' := by
  induction l with
  | nil => simp [renderList]
  | cons d t ih =>
    rw [renderList_cons]
    by_cases hte : t = []
    · subst hte
      rw [show renderList ([] : List FDir) = [] from rfl, List.append_nil]
      exact render_getLast_ne d (h d (List.mem_cons_self d []))
    · rw [List.getLast?_append_of_ne_nil _ (renderList_ne_nil t hte)]
      exact ih (fun x hx => h x (List.mem_cons_of_mem d hx))

theorem splitD_eq (c : Char) :
    ∀ (l : List FDir) (x : List FDir × FDir × List FDir),
      splitD c l = some x → l = x.1 ++ x.2.1 :: x.2.2 := by
  intro l
  induction l with
  | nil => intro x h; simp [splitD] at h
  | cons d t ih =>
    intro x h
    rw [show splitD c (d :: t) =
        if marker d = c then some ([], d, t)
        else (splitD c t).map (fun y => (d :: y.1, y.2.1, y.2.2)) from rfl] at h
    by_cases hm : marker d = c
    · rw [if_pos hm] at h
      cases h
      rfl
    · rw [if_neg hm] at h
      cases hs : splitD c t with
      | none => rw [hs] at h; simp at h
      | some y =>
        rw [hs] at h
        simp at h
        rw [← h]
        show d :: t = d :: (y.1 ++ y.2.1 :: y.2.2)
        rw [← ih y hs]

theorem splitD_marker (c : Char) :
    ∀ (l : List FDir) (x : List FDir × FDir × List FDir),
      splitD c l = some x → marker x.2.1 = c := by
  intro l
  induction l with
  | nil => intro x h; simp [splitD] at h
  | cons d t ih =>
    intro x h
    rw [show splitD c (d :: t) =
        if marker d = c then some ([], d, t)
        else (splitD c t).map (fun y => (d :: y.1, y.2.1, y.2.2)) from rfl] at h
    by_cases hm : marker d = c
    · rw [if_pos hm] at h
      cases h
      exact hm
    · rw [if_neg hm] at h
      cases hs : splitD c t with
      | none => rw [hs] at h; simp at h
      | some y =>
        rw [hs] at h
        simp at h
        rw [← h]
        exact ih y hs

theorem splitFirst_renderList (c : Char) (hc : c ∈ letters) :
    ∀ (l : List FDir), (∀ d ∈ l, argWFb d = true) →
      splitFirst c (renderList l) =
        (splitD c l).map (fun x => (renderList x.1, argOf x.2.1 ++ renderList x.2.2)) := by
  intro l
  induction l with
  | nil => intro _; rfl
  | cons d t ih =>
    intro h
    have hd := h d (List.mem_cons_self d t)
    have ht : ∀ x ∈ t, argWFb x = true := fun x hx => h x (List.mem_cons_of_mem d hx)
    rw [renderList_cons]
    by_cases hm : marker d = c
    · rw [show render d ++ renderList t = c :: (argOf d ++ renderList t) from by
        rw [render, hm, List.cons_append]]
      rw [splitFirst_cons, if_pos rfl,
        show splitD c (d :: t) = some ([], d, t) from by simp [splitD, hm]]
      rfl
    · have hnm := not_mem_render d hd c hc hm
      rw [splitFirst_app c (render d) _ hnm, ih ht,
        show splitD c (d :: t) = (splitD c t).map (fun x => (d :: x.1, x.2.1, x.2.2)) from by
          simp [splitD, hm]]
      cases splitD c t <;> simp [renderList_cons]

theorem renderList_head_letter (l : List FDir) (x : Char)
    (h : (renderList l).head? = some x) : x ∈ letters := by
  cases l with
  | nil => simp [renderList] at h
  | cons d t =>
    rw [renderList_cons, show render d = marker d :: argOf d from rfl, List.cons_append,
      List.head?_cons] at h
    cases h
    exact marker_mem_letters d

theorem takeWhile_app_all (p : Char → Bool) :
    ∀ (a r : List Char), (∀ x ∈ a, p x = true) →
      List.takeWhile p (a ++ r) = a ++ List.takeWhile p r := by
  intro a
  induction a with
  | nil => intro r _; rfl
  | cons x xs ih =>
    intro r h
    rw [List.cons_append, List.takeWhile_cons, if_pos (h x (List.mem_cons_self x xs)),
      ih r (fun y hy => h y (List.mem_cons_of_mem x hy))]
    rfl

theorem atoi_app_digits (a r : List Char) (ha : a ≠ [])
    (hd : ∀ x ∈ a, isDigitC x = true)
    (hr : ∀ x, r.head? = some x → isDigitC x = false) :
    atoi (a ++ r) = (digitsVal a : Int) := by
  cases a with
  | nil => exact absurd rfl ha
  | cons x xs =>
    have hx := hd x (List.mem_cons_self x xs)
    have hxs : ∀ y ∈ xs, isDigitC y = true := fun y hy => hd y (List.mem_cons_of_mem x hy)
    have hrr : List.takeWhile isDigitC r = [] := by
      cases r with
      | nil => rfl
      | cons y ys =>
        rw [List.takeWhile_cons, if_neg (by rw [hr y rfl]; simp)]
    unfold atoi
    rw [List.cons_append, List.dropWhile_cons, if_neg (by rw [digit_not_space x hx]; simp)]
    show (if x = '-' then - (digitsVal ((xs ++ r).takeWhile isDigitC) : Int)
      else if x = '+' then (digitsVal ((xs ++ r).takeWhile isDigitC) : Int)
      else (digitsVal ((x :: (xs ++ r)).takeWhile isDigitC) : Int)) = (digitsVal (x :: xs) : Int)
    rw [if_neg (digit_ne x '-' hx (by decide)), if_neg (digit_ne x '+' hx (by decide)),
      List.takeWhile_cons, if_pos hx, takeWhile_app_all isDigitC xs r hxs, hrr, List.append_nil]

theorem setoptSuffix_renderList (c : Char) (hc : c ∈ letters) (l : List FDir)
    (h : ∀ d ∈ l, argWFb d = true) :
    setoptSuffix (renderList l) c =
      (splitD c l).map (fun x => argOf x.2.1 ++ renderList x.2.2) := by
  unfold setoptSuffix
  rw [splitFirst_renderList c hc l h]
  cases hs : splitD c l with
  | none => rfl
  | some x =>
    have hsub1 : ∀ d ∈ x.1, argWFb d = true := by
      intro d hdm
      refine h d ?_
      rw [splitD_eq c l x hs]
      exact List.mem_append_left _ hdm
    simp only [Option.map_some']
    rw [if_neg (renderList_getLast_ne x.1 hsub1)]

theorem applyW_sem (s : St) (l : List FDir) (h : ∀ d ∈ l, argWFb d = true) :
    applyW s (renderList l) =
      (match getD 'w' l with
        | some (.dwidth a) => { s with width := (digitsVal a : Int) }
        | _ => s) := by
  unfold applyW
  rw [setoptSuffix_renderList 'w' (by simp [letters]) l h]
  cases hs : splitD 'w' l with
  | none => simp [getD, hs]
  | some x =>
    have hm := splitD_marker 'w' l x hs
    have hmem : x.2.1 ∈ l := by
      rw [splitD_eq 'w' l x hs]
      exact List.mem_append_right _ (List.mem_cons_self _ _)
    simp only [Option.map_some', getD, hs]
    cases hdx : x.2.1 with
    | dwidth a =>
      have hwf := h x.2.1 hmem
      rw [hdx] at hwf
      simp [argWFb, List.all_eq_true] at hwf
      show { s with width := atoi (argOf (FDir.dwidth a) ++ renderList x.2.2) } =
        { s with width := (digitsVal a : Int) }
      rw [show argOf (FDir.dwidth a) = a from rfl,
        atoi_app_digits a (renderList x.2.2) hwf.1 hwf.2 (fun y hy =>
          letter_not_digit y (renderList_head_letter x.2.2 y hy))]
    | dprec a => rw [hdx] at hm; simp [marker] at hm
    | dnot ch => rw [hdx] at hm; simp [marker] at hm
    | dfill ch => rw [hdx] at hm; simp [marker] at hm
    | dleft => rw [hdx] at hm; simp [marker] at hm
    | dright => rw [hdx] at hm; simp [marker] at hm

theorem applyP_sem (s : St) (l : List FDir) (h : ∀ d ∈ l, argWFb d = true) :
    applyP s (renderList l) =
      (match getD 'p' l with
        | some (.dprec a) => { s with prec := (digitsVal a : Int) }
        | _ => s) := by
  unfold applyP
  rw [setoptSuffix_renderList 'p' (by simp [letters]) l h]
  cases hs : splitD 'p' l with
  | none => simp [getD, hs]
  | some x =>
    have hm := splitD_marker 'p' l x hs
    have hmem : x.2.1 ∈ l := by
      rw [splitD_eq 'p' l x hs]
      exact List.mem_append_right _ (List.mem_cons_self _ _)
    simp only [Option.map_some', getD, hs]
    cases hdx : x.2.1 with
    | dprec a =>
      have hwf := h x.2.1 hmem
      rw [hdx] at hwf
      simp [argWFb, List.all_eq_true] at hwf
      show { s with prec := atoi (argOf (FDir.dprec a) ++ renderList x.2.2) } =
        { s with prec := (digitsVal a : Int) }
      rw [show argOf (FDir.dprec a) = a from rfl,
        atoi_app_digits a (renderList x.2.2) hwf.1 hwf.2 (fun y hy =>
          letter_not_digit y (renderList_head_letter x.2.2 y hy))]
    | dwidth a => rw [hdx] at hm; simp [marker] at hm
    | dnot ch => rw [hdx] at hm; simp [marker] at hm
    | dfill ch => rw [hdx] at hm; simp [marker] at hm
    | dleft => rw [hdx] at hm; simp [marker] at hm
    | dright => rw [hdx] at hm; simp [marker] at hm

theorem applyM_sem (s : St) (l : List FDir) (h : ∀ d ∈ l, argWFb d = true) :
    applyM s (renderList l) =
      (match getD 'm' l with
        | some (.dnot c) => { s with ffmt := mApply c s.ffmt }
        | _ => s) := by
  unfold applyM
  rw [setoptSuffix_renderList 'm' (by simp [letters]) l h]
  cases hs : splitD 'm' l with
  | none => simp [getD, hs]
  | some x =>
    have hm := splitD_marker 'm' l x hs
    simp only [Option.map_some', getD, hs]
    cases hdx : x.2.1 with
    | dnot ch => rfl
    | dwidth a => rw [hdx] at hm; simp [marker] at hm
    | dprec a => rw [hdx] at hm; simp [marker] at hm
    | dfill ch => rw [hdx] at hm; simp [marker] at hm
    | dleft => rw [hdx] at hm; simp [marker] at hm
    | dright => rw [hdx] at hm; simp [marker] at hm

theorem applyF_sem (s : St) (l : List FDir) (h : ∀ d ∈ l, argWFb d = true) :
    applyF s (renderList l) =
      (match getD 'f' l with
        | some (.dfill c) => { s with fill := c }
        | _ => s) := by
  unfold applyF
  rw [splitFirst_renderList 'f' (by simp [letters]) l h]
  cases hs : splitD 'f' l with
  | none => simp [getD, hs]
  | some x =>
    have hm := splitD_marker 'f' l x hs
    simp only [Option.map_some', getD, hs]
    cases hdx : x.2.1 with
    | dfill ch => rfl
    | dwidth a => rw [hdx] at hm; simp [marker] at hm
    | dprec a => rw [hdx] at hm; simp [marker] at hm
    | dnot ch => rw [hdx] at hm; simp [marker] at hm
    | dleft => rw [hdx] at hm; simp [marker] at hm
    | dright => rw [hdx] at hm; simp [marker] at hm

theorem applyL_sem (s : St) (l : List FDir) (h : ∀ d ∈ l, argWFb d = true) :
    applyL s (renderList l) =
      if FDir.dleft ∈ l then { s with adjust := .aleft } else s := by
  unfold applyL
  by_cases hm : FDir.dleft ∈ l
  · have hLmem : 'L' ∈ renderList l := by
      unfold renderList
      rw [List.mem_flatten]
      exact ⟨render FDir.dleft, List.mem_map_of_mem render hm, by simp [render, marker, argOf]⟩
    rw [if_pos hm, if_pos (show (renderList l).contains 'L' = true from List.elem_iff.mpr hLmem)]
  · rw [if_neg hm, if_neg ?_]
    intro hcon
    have hLmem := List.elem_iff.mp hcon
    unfold renderList at hLmem
    rw [List.mem_flatten] at hLmem
    rcases hLmem with ⟨sub, hsub, hLs⟩
    rw [List.mem_map] at hsub
    rcases hsub with ⟨d, hdl, rfl⟩
    rcases List.mem_cons.mp hLs with he | he
    · have hdd : d = FDir.dleft := by
        cases d <;> first | rfl | simp [marker] at he
      exact hm (hdd ▸ hdl)
    · exact arg_not_letter d (h d hdl) 'L' (by simp [letters]) he

theorem applyR_sem (s : St) (l : List FDir) (h : ∀ d ∈ l, argWFb d = true) :
    applyR s (renderList l) =
      if FDir.dright ∈ l then { s with adjust := .aright } else s := by
  unfold applyR
  by_cases hm : FDir.dright ∈ l
  · have hRmem : 'R' ∈ renderList l := by
      unfold renderList
      rw [List.mem_flatten]
      exact ⟨render FDir.dright, List.mem_map_of_mem render hm, by simp [render, marker, argOf]⟩
    rw [if_pos hm, if_pos (show (renderList l).contains 'R' = true from List.elem_iff.mpr hRmem)]
  · rw [if_neg hm, if_neg ?_]
    intro hcon
    have hRmem := List.elem_iff.mp hcon
    unfold renderList at hRmem
    rw [List.mem_flatten] at hRmem
    rcases hRmem with ⟨sub, hsub, hRs⟩
    rw [List.mem_map] at hsub
    rcases hsub with ⟨d, hdl, rfl⟩
    rcases List.mem_cons.mp hRs with he | he
    · have hdd : d = FDir.dright := by
        cases d <;> first | rfl | simp [marker] at he
      exact hm (hdd ▸ hdl)
    · exact arg_not_letter d (h d hdl) 'R' (by simp [letters]) he

theorem setOpts_renderList (s : St) (l : List FDir) (h : ∀ d ∈ l, argWFb d = true) :
    setOpts s (renderList l) = applySem s l := by
  unfold setOpts applySem
  rw [applyW_sem s l h, applyP_sem _ l h, applyM_sem _ l h, applyF_sem _ l h,
    applyL_sem _ l h, applyR_sem _ l h]

theorem getD_eq_find (c : Char) :
    ∀ (l : List FDir), getD c l = l.find? (fun d => marker d = c) := by
  intro l
  induction l with
  | nil => rfl
  | cons d t ih =>
    by_cases hm : marker d = c
    · rw [List.find?_cons_of_pos _ (by simp [hm])]
      simp [getD, splitD, hm]
    · rw [List.find?_cons_of_neg _ (by simp [hm]), ← ih]
      simp only [getD, splitD, if_neg hm]
      cases splitD c t <;> rfl

theorem find?_eq_head_filter (p : FDir → Bool) :
    ∀ (l : List FDir), l.find? p = (l.filter p).head? := by
  intro l
  induction l with
  | nil => rfl
  | cons d t ih =>
    by_cases hp : p d
    · rw [List.find?_cons_of_pos _ hp, List.filter_cons_of_pos hp]
      rfl
    · rw [List.find?_cons_of_neg _ hp, List.filter_cons_of_neg hp]
      exact ih

theorem filter_marker_le_one (c : Char) (l : List FDir) (hnd : (l.map marker).Nodup) :
    (l.filter (fun d => marker d = c)).length ≤ 1 := by
  cases hf : l.filter (fun d => marker d = c) with
  | nil => simp
  | cons x t =>
    cases t with
    | nil => simp
    | cons y t2 =>
      exfalso
      have hsubl : List.Sublist ((l.filter (fun d => marker d = c)).map marker) (l.map marker) :=
        List.Sublist.map marker (List.filter_sublist l)
      have hnd2 := List.Nodup.sublist hsubl hnd
      rw [hf] at hnd2
      have hx : marker x = c := by
        have hxm : x ∈ l.filter (fun d => marker d = c) := by
          rw [hf]; exact List.mem_cons_self _ _
        simpa using (List.mem_filter.mp hxm).2
      have hy : marker y = c := by
        have hym : y ∈ l.filter (fun d => marker d = c) := by
          rw [hf]; exact List.mem_cons_of_mem _ (List.mem_cons_self _ _)
        simpa using (List.mem_filter.mp hym).2
      simp [hx, hy] at hnd2

theorem perm_of_le_one (L1 L2 : List FDir) (hp : L1.Perm L2) (h1 : L1.length ≤ 1) :
    L1 = L2 := by
  cases L1 with
  | nil => exact (List.Perm.eq_nil hp.symm).symm
  | cons x t =>
    cases t with
    | nil => exact (List.perm_singleton.mp hp.symm).symm
    | cons y t2 => simp at h1

theorem getD_perm (c : Char) (l l' : List FDir) (hnd : (l.map marker).Nodup)
    (hp : l.Perm l') : getD c l = getD c l' := by
  rw [getD_eq_find, getD_eq_find, find?_eq_head_filter, find?_eq_head_filter,
    perm_of_le_one _ _ (hp.filter (fun d => marker d = c)) (filter_marker_le_one c l hnd)]

theorem applySem_perm (s : St) (l l' : List FDir) (hnd : (l.map marker).Nodup)
    (hp : l.Perm l') : applySem s l = applySem s l' := by
  have hmL : FDir.dleft ∈ l ↔ FDir.dleft ∈ l' := hp.mem_iff
  have hmR : FDir.dright ∈ l ↔ FDir.dright ∈ l' := hp.mem_iff
  unfold applySem
  rw [getD_perm 'w' l l' hnd hp, getD_perm 'p' l l' hnd hp, getD_perm 'm' l l' hnd hp,
    getD_perm 'f' l l' hnd hp]
  simp only [hmL, hmR]

/-- C5 counterexample: the bodies `ffw5` and `w5ff` render the same two
directives (fill with `'f'`, width 5) in the two orders, yet parse to
different sink states: in `ffw5` the `w` marker is immediately preceded by
the fill argument `'f'`, the re-scan heuristic fires, and the width
directive is dropped. -/
theorem spec_c5_cex :
    List.Perm [FDir.dfill 'f', FDir.dwidth ['5']] [FDir.dwidth ['5'], FDir.dfill 'f'] ∧
      renderList [FDir.dfill 'f', FDir.dwidth ['5']] = ['f', 'f', 'w', '5'] ∧
      renderList [FDir.dwidth ['5'], FDir.dfill 'f'] = ['w', '5', 'f', 'f'] ∧
      setOpts st0 (renderList [FDir.dfill 'f', FDir.dwidth ['5']]) ≠
        setOpts st0 (renderList [FDir.dwidth ['5'], FDir.dfill 'f']) := by
  refine ⟨by decide, by decide, by decide, by decide⟩

/-- C5 amended: the parse of a placeholder body is independent of the
textual order of its directives provided the directives are well formed
(integer arguments are nonempty digit strings, fill/notation argument
characters are not directive letters) and no two directives share a
letter: any permutation of such a directive list renders to a body that
parses to the same final sink state.  Without these provisos permutations
can differ (see the counterexample). -/
theorem spec_c5_amended (s : St) (l l' : List FDir)
    (hnd : (l.map marker).Nodup) (h : ∀ d ∈ l, argWFb d = true) (hp : l.Perm l') :
    setOpts s (renderList l) = setOpts s (renderList l') := by
  have h' : ∀ d ∈ l', argWFb d = true := fun d hd => h d (hp.mem_iff.mpr hd)
  rw [setOpts_renderList s l h, setOpts_renderList s l' h', applySem_perm s l l' hnd hp]

/-- C5 amended witness: the well-formed bodies `w5f*` and `f*w5` parse to
the same sink state. -/
theorem spec_c5_amended_witness :
    ((([FDir.dwidth ['5'], FDir.dfill '*'].map marker).Nodup) ∧
      (∀ d ∈ [FDir.dwidth ['5'], FDir.dfill '*'], argWFb d = true)) ∧
      setOpts st0 (renderList [FDir.dwidth ['5'], FDir.dfill '*']) =
        setOpts st0 (renderList [FDir.dfill '*', FDir.dwidth ['5']]) :=
  ⟨⟨by decide, by decide⟩,
    spec_c5_amended st0 [FDir.dwidth ['5'], FDir.dfill '*']
      [FDir.dfill '*', FDir.dwidth ['5']] (by decide) (by decide) (by decide)⟩
